import Mathlib

/-
Verification of the Basal Haplogroup Resolution and Geotemporal Aggregation
Engine of HaploMapper (src/HaploMapper.py) against its natural-language
specification.  The definitions below are a shallow embedding of the Python
source: pure expressions become Lean functions, pandas rows become explicit
structures, missing values (NaN) become Option, and the bounded while loop of
the resolver becomes fuel-indexed structural recursion with fuel 50.
-/

namespace HaploMapper

/-! ## LabelNormalizer (HaploMapper.py lines 137 and 199) -/

/-- Longest prefix of a character list before the first occurrence of `c`.
Embeds the Python idiom of splitting on a one-character separator and keeping
field 0. -/
def truncAt (c : Char) (l : List Char) : List Char :=
  l.takeWhile (fun d => decide (d ≠ c))

/-- Removal of every occurrence of the character `c`.  Embeds the Python idiom
of replacing a one-character pattern with the empty string. -/
def removeChar (c : Char) (l : List Char) : List Char :=
  l.filter (fun d => decide (d ≠ c))

/-- LabelNormalizer: the cleanup expression applied to each raw classification
string at lines 137 and 199 of HaploMapper.py — truncate at the first
semicolon, then at the first hyphen, then at the first opening parenthesis,
then delete every tilde and every asterisk. -/
def normalizeLabel (s : String) : String :=
  String.mk (removeChar ('*') (removeChar ('~')
    (truncAt ('(') (truncAt ('-') (truncAt (';') s.data)))))

/-! ## IterativeResolver (findYBasalHaplogroups lines 143-168,
findMTBasalHaplogroups lines 204-225) -/

/-- The three alias tables one resolver round consults, each as a
membership-plus-value lookup (`some v` when the Python dict contains the key
with value v, `none` otherwise).  `basal` embeds the hierarchy dicts
y_basal_dict / mt_basal_dict; `snpInv` embeds the reversed cross-reference
dicts y_snp_dict_inv / mutant_dict_inv; `locus` embeds the secondary
cross-reference dict y_locus_dict — the mitochondrial track, whose elif chain
consults only two dicts, is this model with `locus` constantly `none`. -/
structure Tables where
  basal : String → Option String
  snpInv : String → Option String
  locus : String → Option String

/-- The elif chain entered once the hierarchy-table test has failed (key
absent, or mapped to a root marker): lines 156-163 and 218-222. -/
def resolveFallback (T : Tables) (haplo : String) : String :=
  match T.snpInv haplo with
  | some k => k
  | none =>
    match T.locus haplo with
    | some v => v
    | none => "n/a"

/-- One per-record update, lines 151-163 and 213-222: a key of length greater
than one is pushed through the prioritized chain, every other key is left
untouched.  Note the source guard is the length test alone. -/
def resolveKey (T : Tables) (haplo : String) : String :=
  if 1 < haplo.length then
    match T.basal haplo with
    | some v => if v = "#" ∨ v = "Root" then resolveFallback T haplo else v
    | none => resolveFallback T haplo
  else haplo

/-- One round over the whole batch (the body of the for loop over
enumerate).  Each entry reads only its own position, so the in-place update of
the Python list is a map. -/
def resolveRound (T : Tables) (batch : List String) : List String :=
  batch.map (resolveKey T)

/-- The while-loop guard of lines 146 and 207: some item has length greater
than one and differs from the literal n/a(Female). -/
def loopCond (batch : List String) : Bool :=
  batch.any (fun item => decide (1 < item.length ∧ item ≠ "n/a(Female)"))

/-- The bounded while loop with `fuel` rounds remaining.  The source runs it
with fuel 50: the counter starts at 0, is incremented once per round, and the
guard requires it to stay below 50. -/
def resolveIter (T : Tables) : Nat → List String → List String
  | 0, batch => batch
  | fuel + 1, batch =>
    if loopCond batch then resolveIter T fuel (resolveRound T batch) else batch

/-- Number of rounds the while loop executes, given `fuel` rounds remaining. -/
def resolveRounds (T : Tables) : Nat → List String → Nat
  | 0, _ => 0
  | fuel + 1, batch =>
    if loopCond batch then resolveRounds T fuel (resolveRound T batch) + 1 else 0

/-- IterativeResolver end to end: normalize every raw classification string,
then run the bounded loop with the 50-round budget. -/
def resolveBatch (T : Tables) (raws : List String) : List String :=
  resolveIter T 50 (raws.map normalizeLabel)

/-- Per-record update rule exactly as claim C6 words it, sentinel exemption in
the guard included: a record whose key is the sentinel n/a is never updated. -/
def claimedUpdate (T : Tables) (k : String) : String :=
  if k.length ≤ 1 ∨ k = "n/a" then k
  else
    ((((T.basal k).bind (fun v => if v = "#" ∨ v = "Root" then none else some v)).orElse
      (fun _ => T.snpInv k)).orElse (fun _ => T.locus k)).getD ("n/a")

/-- The amended per-record update rule: guard on key length alone, then the
four-step priority chain.  Written from the amended claim wording, to be
compared with `resolveKey`, the embedding of the source. -/
def specUpdate (T : Tables) (k : String) : String :=
  if k.length ≤ 1 then k
  else
    ((((T.basal k).bind (fun v => if v = "#" ∨ v = "Root" then none else some v)).orElse
      (fun _ => T.snpInv k)).orElse (fun _ => T.locus k)).getD ("n/a")

/-- Alias tables with every lookup empty. -/
def emptyTables : Tables where
  basal := fun _ => none
  snpInv := fun _ => none
  locus := fun _ => none

/-- A hierarchy table that happens to contain the sentinel value n/a as a key. -/
def sentinelTables : Tables where
  basal := fun s => if s = "n/a" then some ("B") else none
  snpInv := fun _ => none
  locus := fun _ => none

/-- Hierarchy table for the concrete failing input of claim C1: H1a has parent
H1, H1 has parent H. -/
def mtBugTables : Tables where
  basal := fun s => if s = "H1a" then some ("H1") else if s = "H1" then some ("H") else none
  snpInv := fun _ => none
  locus := fun _ => none

/-! ## BasalEncoder (createDummyVariables lines 237-279) -/

/-- First character of a column name (the Python subscript col[0]); the empty
case is unreachable in the guarded theorems, since Python raises there. -/
def firstChar (s : String) : Char := s.data.headD (' ')

/-- Column retention test of lines 242-243: the name must not start with the
letter n and its first character must be alphabetic.  For a one-character
pattern the startswith test is a first-character test.  On the empty string
Python raises IndexError; the model returns false and every theorem using this
assumes nonempty keys. -/
def keepCol (s : String) : Bool :=
  match s.data with
  | [] => false
  | c :: _ => decide (c ≠ 'n') && c.isAlpha

/-- Indicator cell of the one-hot table built by get_dummies: 1 exactly when
the record value equals the column value. -/
def indicator (col k : String) : Nat := if k = col then 1 else 0

/-- The full one-hot column set: one column per distinct observed value of the
encoded column (get_dummies sorts its columns; order is immaterial to every
statement below, so distinctness is kept and order ignored). -/
def dummyCols (keys : List String) : List String := keys.dedup

/-- Retained indicator columns after the filter of lines 242-247. -/
def keptCols (keys : List String) : List String := (dummyCols keys).filter keepCol

/-- Distinct first letters of the retained columns, lines 250-251. -/
def letterList (keys : List String) : List Char :=
  ((keptCols keys).map firstChar).dedup

/-- Per-letter grouped sum for one record, lines 254-261: the row sum of every
retained indicator column whose name starts with the letter. -/
def letterSum (keys : List String) (l : Char) (k : String) : Nat :=
  (((keptCols keys).filter (fun c => decide (firstChar c = l))).map
    (fun c => indicator c k)).sum

/-- Track total for one record, lines 264-269: the row sum of the per-letter
grouped sums (the filter selecting the reserved _sum suffix picks exactly the
per-letter columns, haplogroup keys never carrying that suffix). -/
def haplosSum (keys : List String) (k : String) : Nat :=
  ((letterList keys).map (fun l => letterSum keys l k)).sum

/-- The mitochondrial indicator columns as the source builds them at line 239:
one column per distinct value of the RAW classification column, which
findMTBasalHaplogroups never overwrites — its resolved keys go to the separate
column named Updated mtDNA haplogroup, which no later code reads. -/
def mtIndicatorCols (raws : List String) : List String := raws.dedup

/-! ## Binner (create_bins lines 83-107) -/

/-- Lower edge of the half-open age interval containing `a`, for bin width
`w` (pd.cut with right=False over the edges 0, w, 2w, ...). -/
def binLow (w a : Nat) : Nat := (a / w) * w

/-- Interval label of line 97: low, hyphen, low plus width minus one. -/
def dateBinLabel (w a : Nat) : String :=
  toString (binLow w a) ++ "-" ++ toString (binLow w a + w - 1)

/-- The DateBins cell: pd.cut yields a missing value both for a missing age
and for an age beyond the tiled domain of 120000 years. -/
def dateBin (w : Nat) (age : Option Nat) : Option String :=
  match age with
  | none => none
  | some a => if a < 120000 then some (dateBinLabel w a) else none

/-- The CombinedBins cell of lines 103-104.  A missing region gives a missing
key (NaN plus string is NaN in pandas).  A missing DateBins cell, however, is
first rendered by astype(str) as the three-letter text nan and then
concatenated, producing a perfectly valid composite key. -/
def combinedBin (region : Option String) (dbin : Option String) : Option String :=
  match region with
  | none => none
  | some r =>
    some (r ++ " (" ++ (match dbin with | none => "nan" | some lab => lab) ++ "BP)")

/-- One sample record as the binning step sees it: grouping fields only. -/
structure Rec where
  lat : String
  lon : String
  region : Option String
  age : Option Nat

/-- Composite bin key of a record. -/
def recBin (w : Nat) (r : Rec) : Option String :=
  combinedBin r.region (dateBin w r.age)

/-! ## Aggregator (createTable lines 281-315) -/

/-- One row entering createTable: the grouping keys plus numeric cells
addressed by column name; a `none` cell is a NaN, which pandas summation
skips.  Latitude and longitude act as opaque grouping keys.  Cells are
integers: every aggregated column holds counts, the astype(float) of the
source only widening the representation for a later division this engine does
not perform. -/
structure Row where
  lat : String
  lon : String
  bin : Option String
  cols : String → Option ℤ

/-- Row built from a record: its composite bin key comes from the Binner. -/
def mkRow (w : Nat) (r : Rec) (cols : String → Option ℤ) : Row :=
  { lat := r.lat, lon := r.lon, bin := recBin w r, cols := cols }

/-- Numeric value of a cell under pandas summation: NaN counts as zero. -/
def cell (r : Row) (c : String) : ℤ := (r.cols c).getD 0

/-- Rows of one bin-level group; groupby drops rows whose key is missing. -/
def binGroup (rows : List Row) (b : String) : List Row :=
  rows.filter (fun r => decide (r.bin = some b))

/-- The observed bin keys. -/
def binKeys (rows : List Row) : List String :=
  (rows.filterMap (fun r => r.bin)).dedup

/-- Bin-level aggregated value of column `c` (line 308, agg sum); the source
requests it for every column carrying the _sum suffix. -/
def binSum (rows : List Row) (b : String) (c : String) : ℤ :=
  ((binGroup rows b).map (fun r => cell r c)).sum

/-- Site-level grouping key: latitude, longitude and composite bin; missing
when the bin key is missing, and groupby drops such rows. -/
def siteKey (r : Row) : Option (String × String × String) :=
  (r.bin).map (fun b => (r.lat, r.lon, b))

/-- The observed site-level keys. -/
def siteKeys (rows : List Row) : List (String × String × String) :=
  (rows.filterMap siteKey).dedup

/-- Rows of one site-level group. -/
def siteGroup (rows : List Row) (k : String × String × String) : List Row :=
  rows.filter (fun r => decide (siteKey r = some k))

/-- Site-level aggregated value of a numeric column (line 297:
custom_aggregate sums float64 and int64 columns). -/
def siteSum (rows : List Row) (k : String × String × String) (c : String) : ℤ :=
  ((siteGroup rows k).map (fun r => cell r c)).sum

/-- A pandas cell as the final coercion step of createTable can see it. -/
inductive PdCell where
  | num (q : ℚ)
  | str (s : String)
  | na
deriving DecidableEq

/-- Numeric parse underlying pd.to_numeric, restricted to integer literals
(all this development needs is that some strings fail to parse). -/
def parseDigits (l : List Char) (acc : Nat) : Option Nat :=
  match l with
  | [] => some acc
  | c :: t => if c.isDigit then parseDigits t (acc * 10 + (c.toNat - 48)) else none

def parseCell (s : String) : Option ℚ :=
  match s.data with
  | [] => none
  | l => (parseDigits l 0).map (fun n => (n : ℚ))

/-- pd.to_numeric with the coerce error mode: parse failures become NaN —
never an exception, and never zero. -/
def toNumericCoerce (c : PdCell) : PdCell :=
  match c with
  | .num q => .num q
  | .str s =>
    match parseCell s with
    | some q => .num q
    | none => .na
  | .na => .na

/-- What createTable does to a total-count cell of the bin-level table: the
coercion of lines 311-312. -/
def finalizeBinTotal (c : PdCell) : PdCell := toNumericCoerce c

/-- What createTable does to a total-count cell of the site-level table:
nothing — no coercion is applied to combined_df_inds anywhere in the source. -/
def finalizeSiteTotal (c : PdCell) : PdCell := c

/-! ## Concrete instances used by witnesses and counterexamples -/

/-- Record with a region but an unresolvable age. -/
def recNoAge : Rec where
  lat := "10.0"
  lon := "20.0"
  region := some ("Sweden")
  age := none

/-- Record with an age but a missing region. -/
def recNoRegion : Rec where
  lat := "10.0"
  lon := "20.0"
  region := none
  age := some 500

/-- Cells of a record resolved to the basal letter R. -/
def colsR : String → Option ℤ := fun c =>
  if c = "R_y_sum" then some 1 else if c = "y_haplos_sum" then some 1 else none

/-- Two rows sharing one composite bin at distinct sites, plus the row of the
ageless record. -/
def rowA : Row where
  lat := "1"
  lon := "2"
  bin := some ("S (0-999BP)")
  cols := colsR

def rowB : Row where
  lat := "3"
  lon := "2"
  bin := some ("S (0-999BP)")
  cols := colsR

def rowNoAge : Row := mkRow 1000 recNoAge colsR

/-! ## General summation helpers -/

theorem sumMapConstZero {α M : Type} [AddCommMonoid M] (L : List α) :
    (L.map (fun _ => (0 : M))).sum = 0 := by
  induction L with
  | nil => rfl
  | cons a t ih => simp [ih]

theorem sumMapAdd {α M : Type} [AddCommMonoid M] (L : List α) (g h : α → M) :
    (L.map (fun a => g a + h a)).sum = (L.map g).sum + (L.map h).sum := by
  induction L with
  | nil => simp
  | cons a t ih =>
    simp only [List.map_cons, List.sum_cons, ih]
    abel

theorem sumIteNotMem {K M : Type} [DecidableEq K] [AddCommMonoid M]
    (Ks : List K) (x : K) (v : M) (hx : x ∉ Ks) :
    (Ks.map (fun k => if x = k then v else 0)).sum = 0 := by
  induction Ks with
  | nil => rfl
  | cons a t ih =>
    have hne : x ≠ a := fun h => hx (h ▸ List.mem_cons_self a t)
    have hxt : x ∉ t := fun h => hx (List.mem_cons_of_mem a h)
    simp [hne, ih hxt]

theorem sumIteNodup {K M : Type} [DecidableEq K] [AddCommMonoid M]
    (Ks : List K) (hnd : Ks.Nodup) (x : K) (v : M) :
    (Ks.map (fun k => if x = k then v else 0)).sum = if x ∈ Ks then v else 0 := by
  induction Ks with
  | nil => simp
  | cons a t ih =>
    by_cases hxa : x = a
    · subst hxa
      have hxt : x ∉ t := (List.nodup_cons.mp hnd).1
      simp [sumIteNotMem t x v hxt]
    · simp only [List.map_cons, List.sum_cons, if_neg hxa,
        ih (List.nodup_cons.mp hnd).2, zero_add, List.mem_cons]
      have : (x = a ∨ x ∈ t) ↔ x ∈ t := by
        constructor
        · intro h
          rcases h with h | h
          · exact absurd h hxa
          · exact h
        · exact Or.inr
      rw [if_congr this rfl rfl]

theorem sumSwap {α β M : Type} [AddCommMonoid M] (L : List α) (C : List β)
    (v : α → β → M) :
    (L.map (fun a => (C.map (fun c => v a c)).sum)).sum
      = (C.map (fun c => (L.map (fun a => v a c)).sum)).sum := by
  induction L with
  | nil => simp [sumMapConstZero]
  | cons a t ih =>
    simp only [List.map_cons, List.sum_cons, ih]
    rw [← sumMapAdd]

theorem filterAbsorb {α : Type} (p q : α → Bool) (h : ∀ a, p a = true → q a = true)
    (l : List α) : (l.filter q).filter p = l.filter p := by
  induction l with
  | nil => rfl
  | cons a t ih =>
    by_cases hp : p a = true
    · have hq := h a hp
      simp [List.filter_cons, hq, hp, ih]
    · have hp' : p a = false := by
        revert hp
        cases p a <;> simp
      cases hq : q a <;> simp [List.filter_cons, hq, hp', ih]

theorem sumFiber {α K M : Type} [DecidableEq K] [AddCommMonoid M]
    (f : α → M) (κ : α → Option K) :
    ∀ (L : List α) (Ks : List K), Ks.Nodup →
      (∀ a ∈ L, ∃ k, κ a = some k ∧ k ∈ Ks) →
      (Ks.map (fun k => ((L.filter (fun a => decide (κ a = some k))).map f).sum)).sum
        = (L.map f).sum := by
  intro L
  induction L with
  | nil => intro Ks _ _; simp [sumMapConstZero]
  | cons a t ih =>
    intro Ks hnd hcov
    obtain ⟨k₀, hk₀, hk₀mem⟩ := hcov a (List.mem_cons_self a t)
    have hsplit : ∀ k : K,
        (((a :: t).filter (fun x => decide (κ x = some k))).map f).sum
          = (if k₀ = k then f a else 0)
            + ((t.filter (fun x => decide (κ x = some k))).map f).sum := by
      intro k
      by_cases hk : k₀ = k
      · subst hk
        rw [List.filter_cons_of_pos (by simp [hk₀])]
        simp
      · have hne : ¬ (κ a = some k) := by
          rw [hk₀]
          intro h
          exact hk (Option.some.inj h)
        rw [List.filter_cons_of_neg (by simp [hne])]
        simp [hk]
    calc (Ks.map (fun k =>
            (((a :: t).filter (fun x => decide (κ x = some k))).map f).sum)).sum
        = (Ks.map (fun k => (if k₀ = k then f a else 0)
            + ((t.filter (fun x => decide (κ x = some k))).map f).sum)).sum := by
          exact congrArg List.sum (List.map_congr_left (fun k _ => hsplit k))
      _ = (Ks.map (fun k => if k₀ = k then f a else 0)).sum
            + (Ks.map (fun k =>
                ((t.filter (fun x => decide (κ x = some k))).map f).sum)).sum := by
          exact sumMapAdd Ks _ _
      _ = f a + (t.map f).sum := by
          rw [sumIteNodup Ks hnd k₀ (f a), if_pos hk₀mem,
            ih Ks hnd (fun x hx => hcov x (List.mem_cons_of_mem a hx))]
      _ = ((a :: t).map f).sum := by simp

/-! ## Resolver lemmas -/

theorem resolveKey_short (T : Tables) (k : String) (h : k.length ≤ 1) :
    resolveKey T k = k := by
  unfold resolveKey
  rw [if_neg (by omega)]

theorem resolveIter_of_conv (T : Tables) (n : Nat) (b : List String)
    (h : loopCond b = false) : resolveIter T n b = b := by
  cases n with
  | zero => rfl
  | succ m =>
    unfold resolveIter
    rw [h]
    simp

theorem resolveRounds_of_conv (T : Tables) (n : Nat) (b : List String)
    (h : loopCond b = false) : resolveRounds T n b = 0 := by
  cases n with
  | zero => rfl
  | succ m =>
    unfold resolveRounds
    rw [h]
    simp

theorem resolveRounds_le (T : Tables) (n : Nat) (b : List String) :
    resolveRounds T n b ≤ n := by
  induction n generalizing b with
  | zero => exact Nat.le_refl 0
  | succ m ih =>
    unfold resolveRounds
    by_cases h : loopCond b = true
    · rw [if_pos h]
      exact Nat.succ_le_succ (ih (resolveRound T b))
    · rw [if_neg h]
      exact Nat.zero_le _

theorem loopCond_false_iff (b : List String) :
    loopCond b = false ↔ ∀ k ∈ b, k.length ≤ 1 ∨ k = "n/a(Female)" := by
  unfold loopCond
  constructor
  · intro h k hk
    by_contra hcon
    push_neg at hcon
    obtain ⟨h1, h2⟩ := hcon
    have : b.any (fun item => decide (1 < item.length ∧ item ≠ "n/a(Female)")) = true :=
      List.any_eq_true.mpr ⟨k, hk, by simp [h2]; omega⟩
    rw [h] at this
    exact Bool.false_ne_true this
  · intro h
    by_contra hcon
    have htrue : b.any (fun item => decide (1 < item.length ∧ item ≠ "n/a(Female)")) = true := by
      revert hcon
      cases b.any (fun item => decide (1 < item.length ∧ item ≠ "n/a(Female)")) <;> simp
    obtain ⟨k, hk, hp⟩ := List.any_eq_true.mp htrue
    rw [decide_eq_true_eq] at hp
    rcases h k hk with hle | heq
    · omega
    · exact hp.2 heq

theorem resolveRounds_stuck (T : Tables) (b : List String)
    (h1 : loopCond b = true) (h2 : resolveRound T b = b) (n : Nat) :
    resolveRounds T n b = n := by
  induction n with
  | zero => rfl
  | succ m ih =>
    unfold resolveRounds
    rw [if_pos h1, h2, ih]

/-! ## Claim theorems -/

/-- Claim C2 (amended): for every alias-table configuration and every batch —
including tables containing cycles or dangling references — the resolver loop
executes at most 50 rounds; its stop condition is that every current key has
length at most 1 or equals the literal n/a(Female) (not the sentinel n/a that
rule 4 assigns), and when that condition already holds no round executes and
every record keeps the key it held. -/
theorem c2_theorem (T : Tables) (b : List String) :
    resolveRounds T 50 b ≤ 50 ∧
    (loopCond b = false ↔ ∀ k ∈ b, k.length ≤ 1 ∨ k = "n/a(Female)") ∧
    ((∀ k ∈ b, k.length ≤ 1 ∨ k = "n/a(Female)") →
      resolveIter T 50 b = b ∧ resolveRounds T 50 b = 0) := by
  refine ⟨resolveRounds_le T 50 b, loopCond_false_iff b, ?_⟩
  intro h
  have hc : loopCond b = false := (loopCond_false_iff b).mpr h
  exact ⟨resolveIter_of_conv T 50 b hc, resolveRounds_of_conv T 50 b hc⟩

/-- Witness for C2 at empty tables and an already-converged batch. -/
theorem c2_witness :
    (∀ k ∈ (["A"] : List String), k.length ≤ 1 ∨ k = "n/a(Female)") ∧
    resolveIter emptyTables 50 ["A"] = ["A"] ∧
    resolveRounds emptyTables 50 ["A"] = 0 := by
  have h := (c2_theorem emptyTables ["A"]).2.2 (by decide)
  exact ⟨by decide, h.1, h.2⟩

/-- Counterexample to C2 as stated: with empty alias tables the batch holding
the single key XY reaches the all-sentinel state after one round (every key
equals n/a), yet the loop does not stop there — it runs the full 50 rounds,
because the stop condition exempts only the literal n/a(Female). -/
theorem c2_counterexample :
    resolveRound emptyTables ["XY"] = ["n/a"] ∧
    resolveRounds emptyTables 50 ["XY"] = 50 := by
  constructor
  · rfl
  · have hstep : resolveRounds emptyTables 50 ["XY"]
        = resolveRounds emptyTables 49 ["n/a"] + 1 := by
      unfold resolveRounds
      rw [if_pos (by decide)]
      rfl
    rw [hstep, resolveRounds_stuck emptyTables ["n/a"] (by decide) (by decide) 49]

/-- Claim C6 (amended): in each resolver round exactly the records whose
current key has length greater than 1 are updated — the sentinel is not
exempted, so a table that maps the sentinel n/a remaps it like any other
multi-character key — and the update is the four-step priority chain: a
hierarchy-table value that is not a root marker, else the reverse
cross-reference entry, else the secondary cross-reference value, else the
sentinel. -/
theorem c6_theorem (T : Tables) (k : String) : resolveKey T k = specUpdate T k := by
  by_cases hlen : 1 < k.length
  · unfold resolveKey specUpdate
    rw [if_pos hlen, if_neg (by omega)]
    cases hb : T.basal k with
    | none =>
      unfold resolveFallback
      cases hs : T.snpInv k with
      | none =>
        cases hl : T.locus k <;> simp [Option.orElse, hs, hl]
      | some v => simp [Option.orElse, hs]
    | some v =>
      show (if v = "#" ∨ v = "Root" then resolveFallback T k else v) = _
      by_cases hroot : v = "#" ∨ v = "Root"
      · rw [if_pos hroot]
        unfold resolveFallback
        cases hs : T.snpInv k with
        | none =>
          cases hl : T.locus k <;> simp [Option.orElse, hroot, hs, hl]
        | some w => simp [Option.orElse, hroot, hs]
      · rw [if_neg hroot]
        simp [Option.orElse, hroot]
  · unfold resolveKey specUpdate
    rw [if_neg hlen, if_pos (by omega)]

/-- Counterexample to C6 as stated: with a hierarchy table mapping n/a to B,
the source updates a record holding the sentinel (its key has length 3), while
the claimed rule, which exempts the sentinel, leaves it unchanged. -/
theorem c6_counterexample :
    resolveKey sentinelTables ("n/a") = ("B") ∧
    claimedUpdate sentinelTables ("n/a") = ("n/a") ∧
    (("B") : String) ≠ ("n/a") := by
  refine ⟨rfl, rfl, by decide⟩

/-- Claim C9: a record whose candidate key is already a single character is
never touched — one update leaves it unchanged, and the full bounded run, for
any fuel, any alias tables and any other records in the batch, returns it
unchanged at its position. -/
theorem c9_theorem (T : Tables) (b : List String) (n i : Nat) (k : String)
    (hget : b[i]? = some k) (hlen : k.length = 1) :
    resolveKey T k = k ∧ (resolveIter T n b)[i]? = some k := by
  refine ⟨resolveKey_short T k (by omega), ?_⟩
  induction n generalizing b with
  | zero => exact hget
  | succ m ih =>
    unfold resolveIter
    by_cases hc : loopCond b = true
    · rw [if_pos hc]
      apply ih
      unfold resolveRound
      rw [List.getElem?_map, hget]
      simp [resolveKey_short T k (by omega)]
    · rw [if_neg hc]
      exact hget

/-- Witness for C9: the single letter A at position 0 survives a 50-round run
over a batch whose other record does get rewritten. -/
theorem c9_witness :
    ((["A", "BC"] : List String)[0]? = some ("A")) ∧
    (("A" : String).length = 1) ∧
    resolveKey emptyTables ("A") = ("A") ∧
    (resolveIter emptyTables 50 ["A", "BC"])[0]? = some ("A") := by
  have h := c9_theorem emptyTables ["A", "BC"] 50 0 ("A") (by rfl) (by decide)
  exact ⟨rfl, by decide, h.1, h.2⟩

/-! ## Normalizer lemmas -/

theorem mem_truncAt {c d : Char} {l : List Char} (h : d ∈ truncAt c l) : d ≠ c := by
  induction l with
  | nil => cases h
  | cons a t ih =>
    unfold truncAt at h
    rw [List.takeWhile_cons] at h
    by_cases ha : a = c
    · simp [ha] at h
    · rw [if_pos (by simpa using ha)] at h
      rcases List.mem_cons.mp h with rfl | hmem
      · exact ha
      · exact ih hmem

theorem truncAt_sublist (c : Char) (l : List Char) : (truncAt c l).Sublist l :=
  List.takeWhile_sublist _

theorem removeChar_sublist (c : Char) (l : List Char) : (removeChar c l).Sublist l :=
  List.filter_sublist _

theorem mem_removeChar {c d : Char} {l : List Char} (h : d ∈ removeChar c l) :
    d ∈ l ∧ d ≠ c := by
  have := List.mem_filter.mp h
  exact ⟨this.1, by simpa using this.2⟩

theorem truncAt_eq_self {c : Char} {l : List Char} (h : ∀ d ∈ l, d ≠ c) :
    truncAt c l = l := by
  induction l with
  | nil => rfl
  | cons a t ih =>
    unfold truncAt
    rw [List.takeWhile_cons, if_pos (by simpa using h a (List.mem_cons_self a t))]
    rw [show t.takeWhile (fun d => decide (d ≠ c)) = truncAt c t from rfl,
      ih (fun d hd => h d (List.mem_cons_of_mem a hd))]

theorem removeChar_eq_self {c : Char} {l : List Char} (h : ∀ d ∈ l, d ≠ c) :
    removeChar c l = l := by
  induction l with
  | nil => rfl
  | cons a t ih =>
    unfold removeChar
    rw [List.filter_cons, if_pos (by simpa using h a (List.mem_cons_self a t))]
    rw [show t.filter (fun d => decide (d ≠ c)) = removeChar c t from rfl,
      ih (fun d hd => h d (List.mem_cons_of_mem a hd))]

theorem whitespace_ne_marks (c : Char) (h : c.isWhitespace = true) :
    c ≠ ';' ∧ c ≠ '-' ∧ c ≠ '(' ∧ c ≠ '~' ∧ c ≠ '*' := by
  simp only [Char.isWhitespace, Bool.or_eq_true, decide_eq_true_eq] at h
  rcases h with (h | h) | h
  · rcases h with h | h <;> subst h <;> decide
  · subst h; decide
  · subst h; decide

/-- Claim C8 (amended): the normalizer deletes only characters — the result is
a sublist of the input containing no semicolon, hyphen, opening parenthesis,
tilde or asterisk — it is a pure deterministic function, and an input all of
whose characters are whitespace (the empty string included) is returned
unchanged: a whitespace-only input therefore yields itself, not the empty
string. -/
theorem c8_theorem (s : String) :
    (∀ c ∈ (normalizeLabel s).data, c ≠ ';' ∧ c ≠ '-' ∧ c ≠ '(' ∧ c ≠ '~' ∧ c ≠ '*') ∧
    ((normalizeLabel s).data).Sublist s.data ∧
    ((∀ c ∈ s.data, c.isWhitespace = true) → normalizeLabel s = s) := by
  refine ⟨?_, ?_, ?_⟩
  · intro c hc
    have h1 : c ∈ removeChar ('~')
        (truncAt ('(') (truncAt ('-') (truncAt (';') s.data))) ∧ c ≠ '*' :=
      mem_removeChar hc
    have h2 : c ∈ truncAt ('(') (truncAt ('-') (truncAt (';') s.data)) ∧ c ≠ '~' :=
      mem_removeChar h1.1
    have h3 : c ≠ '(' := mem_truncAt h2.1
    have h4 : c ∈ truncAt ('-') (truncAt (';') s.data) :=
      (truncAt_sublist _ _).subset h2.1
    have h5 : c ≠ '-' := mem_truncAt h4
    have h6 : c ∈ truncAt (';') s.data := (truncAt_sublist _ _).subset h4
    have h7 : c ≠ ';' := mem_truncAt h6
    exact ⟨h7, h5, h3, h2.2, h1.2⟩
  · exact ((((removeChar_sublist _ _).trans (removeChar_sublist _ _)).trans
      (truncAt_sublist _ _)).trans (truncAt_sublist _ _)).trans (truncAt_sublist _ _)
  · intro hws
    have hne : ∀ x : Char, x ∈ s.data →
        x ≠ ';' ∧ x ≠ '-' ∧ x ≠ '(' ∧ x ≠ '~' ∧ x ≠ '*' :=
      fun x hx => whitespace_ne_marks x (hws x hx)
    unfold normalizeLabel
    rw [truncAt_eq_self (fun d hd => (hne d hd).1),
      truncAt_eq_self (fun d hd => (hne d hd).2.1),
      truncAt_eq_self (fun d hd => (hne d hd).2.2.1),
      removeChar_eq_self (fun d hd => (hne d hd).2.2.2.1),
      removeChar_eq_self (fun d hd => (hne d hd).2.2.2.2)]

/-- Witness for C8 at the one-blank input: a whitespace-only string passes
through unchanged. -/
theorem c8_witness :
    (∀ c ∈ (" " : String).data, c.isWhitespace = true) ∧ normalizeLabel (" ") = (" ") := by
  exact ⟨by decide, (c8_theorem (" ")).2.2 (by decide)⟩

/-- Counterexample to C8 as stated: the whitespace-only input consisting of one
blank yields itself, not the empty string. -/
theorem c8_counterexample :
    normalizeLabel (" ") = (" ") ∧ ((" " : String) ≠ ("")) := by
  exact ⟨rfl, by decide⟩

/-! ## Encoder lemmas -/

theorem mem_keptCols {keys : List String} {k : String} :
    k ∈ keptCols keys ↔ k ∈ keys ∧ keepCol k = true := by
  unfold keptCols dummyCols
  rw [List.mem_filter, List.mem_dedup]

theorem keptCols_nodup (keys : List String) : (keptCols keys).Nodup :=
  (List.nodup_dedup keys).filter _

/-- Claim C1, evaluation of the source at the failing input: with raw
mitochondrial classification H1a and hierarchy table sending H1a to H1 and H1
to H, the resolver output is the single letter H, but the indicator column set
the encoder receives is the raw value H1a — the indicator columns of the
mitochondrial track are built from the raw classification column, not from the
resolved keys, and a surviving key of length 3 enters the encoding step. -/
theorem c1_code_eval :
    mtIndicatorCols [("H1a")] = [("H1a")] ∧
    resolveBatch mtBugTables [("H1a")] = [("H")] ∧
    (("H1a") : String) ≠ ("H") := by
  exact ⟨rfl, rfl, by decide⟩

/-- Claim C10: before any aggregation, each individual record contributes
exactly one 1 to the full one-hot column set; its per-letter grouped sums are
1 at precisely the first letter of its key when the key is retained (first
character alphabetic and not n) and 0 everywhere otherwise; and its track
total is 1 when the key is retained and 0 otherwise.  The nonemptiness
hypothesis marks the domain on which the Python column filter does not raise. -/
theorem c10_theorem (keys : List String) (k : String) (hk : k ∈ keys)
    (_hne : ∀ s ∈ keys, s ≠ "") :
    ((dummyCols keys).map (fun c => indicator c k)).sum = 1 ∧
    (∀ l : Char, letterSum keys l k
        = if keepCol k = true ∧ firstChar k = l then 1 else 0) ∧
    haplosSum keys k = (if keepCol k = true then 1 else 0) := by
  have hb : ∀ l : Char, letterSum keys l k
      = if keepCol k = true ∧ firstChar k = l then 1 else 0 := by
    intro l
    unfold letterSum
    have hnd : ((keptCols keys).filter (fun c => decide (firstChar c = l))).Nodup :=
      (keptCols_nodup keys).filter _
    have hmem : k ∈ (keptCols keys).filter (fun c => decide (firstChar c = l))
        ↔ (keepCol k = true ∧ firstChar k = l) := by
      rw [List.mem_filter, mem_keptCols, decide_eq_true_eq]
      constructor
      · intro h
        exact ⟨h.1.2, h.2⟩
      · intro h
        exact ⟨⟨hk, h.1⟩, h.2⟩
    calc (((keptCols keys).filter (fun c => decide (firstChar c = l))).map
            (fun c => indicator c k)).sum
        = if k ∈ (keptCols keys).filter (fun c => decide (firstChar c = l))
            then 1 else 0 := by
          rw [show (fun c => indicator c k) = (fun c => if k = c then 1 else 0) from
            funext (fun c => rfl)]
          exact sumIteNodup _ hnd k 1
      _ = if keepCol k = true ∧ firstChar k = l then 1 else 0 :=
          if_congr hmem rfl rfl
  refine ⟨?_, hb, ?_⟩
  · unfold dummyCols
    rw [show (fun c => indicator c k) = (fun c => if k = c then 1 else 0) from
      funext (fun c => rfl)]
    rw [sumIteNodup keys.dedup (List.nodup_dedup keys) k 1,
      if_pos (List.mem_dedup.mpr hk)]
  · unfold haplosSum
    rw [List.map_congr_left (fun l _ => hb l)]
    by_cases hkeep : keepCol k = true
    · have hfc : firstChar k ∈ letterList keys := by
        unfold letterList
        exact List.mem_dedup.mpr
          (List.mem_map_of_mem firstChar (mem_keptCols.mpr ⟨hk, hkeep⟩))
      calc ((letterList keys).map
              (fun l => if keepCol k = true ∧ firstChar k = l then 1 else 0)).sum
          = ((letterList keys).map
              (fun l => if firstChar k = l then 1 else 0)).sum := by
            exact congrArg List.sum
              (List.map_congr_left (fun l _ => by simp [hkeep]))
        _ = if firstChar k ∈ letterList keys then 1 else 0 :=
            sumIteNodup _ (List.nodup_dedup _) (firstChar k) 1
        _ = 1 := if_pos hfc
        _ = if keepCol k = true then 1 else 0 := by rw [if_pos hkeep]
    · calc ((letterList keys).map
              (fun l => if keepCol k = true ∧ firstChar k = l then 1 else 0)).sum
          = ((letterList keys).map (fun _ => (0 : Nat))).sum := by
            exact congrArg List.sum
              (List.map_congr_left (fun l _ => by simp [hkeep]))
        _ = 0 := sumMapConstZero _
        _ = if keepCol k = true then 1 else 0 := by rw [if_neg hkeep]

/-- Witness for C10 on the batch holding keys R and n/a: the R record hits one
indicator column, its letter sum at R is 1 and its track total is 1. -/
theorem c10_witness :
    (("R") ∈ (["R", "n/a"] : List String)) ∧
    (∀ s ∈ (["R", "n/a"] : List String), s ≠ ("")) ∧
    ((dummyCols ["R", "n/a"]).map (fun c => indicator c ("R"))).sum = 1 ∧
    letterSum ["R", "n/a"] ('R') ("R") = 1 ∧
    haplosSum ["R", "n/a"] ("R") = 1 := by
  have h := c10_theorem ["R", "n/a"] ("R") (by decide) (by decide)
  refine ⟨by decide, by decide, h.1, ?_, ?_⟩
  · rw [h.2.1 ('R')]
    decide
  · rw [h.2.2]
    decide

/-! ## Binner and Aggregator claims -/

/-- Claim C3 (amended): a record with a missing region gets a missing
composite key and rows with a missing key are dropped by every grouping — so
only missing-region records are excluded from both aggregation levels; a
record whose age is unresolvable but whose region is present instead gets the
composite key region, blank, parenthesis, nan, BP, parenthesis — the missing
date bin is rendered as the literal text nan — and therefore participates in
both aggregation levels under that key. -/
theorem c3_theorem (w : Nat) (r : Rec) (reg : String) :
    (r.region = none → recBin w r = none) ∧
    (r.region = some reg → r.age = none → recBin w r = some (reg ++ " (nanBP)")) ∧
    (∀ (rows : List Row) (row : Row), row.bin = none →
      (∀ bkey, row ∉ binGroup rows bkey) ∧ (∀ k, row ∉ siteGroup rows k)) := by
  refine ⟨?_, ?_, ?_⟩
  · intro h
    unfold recBin combinedBin
    rw [h]
  · intro h1 h2
    unfold recBin dateBin combinedBin
    rw [h1, h2]
    show some (reg ++ " (" ++ "nan" ++ "BP)") = some (reg ++ " (nanBP)")
    rw [String.append_assoc, String.append_assoc]
    exact congrArg (fun t => some (reg ++ t)) (by decide)
  · intro rows row hb
    constructor
    · intro bkey hmem
      have := (List.mem_filter.mp hmem).2
      rw [decide_eq_true_eq] at this
      rw [hb] at this
      cases this
    · intro k hmem
      have := (List.mem_filter.mp hmem).2
      rw [decide_eq_true_eq] at this
      unfold siteKey at this
      rw [hb] at this
      cases this

/-- Witness for C3: a missing region gives a missing key, a missing age with a
present region gives the nanBP key. -/
theorem c3_witness :
    recBin 1000 recNoRegion = none ∧
    recBin 1000 recNoAge = some (("Sweden") ++ " (nanBP)") := by
  exact ⟨(c3_theorem 1000 recNoRegion ("Sweden")).1 rfl,
    (c3_theorem 1000 recNoAge ("Sweden")).2.1 rfl rfl⟩

/-- Counterexample to C3 as stated: the record at site (10.0, 20.0) in Sweden
with unresolvable age maps to the bin key Sweden (nanBP) — a key is created —
and the record is present in the site-level grouping, in the bin-level
grouping, and in the bin-level count. -/
theorem c3_counterexample :
    recBin 1000 recNoAge = some ("Sweden (nanBP)") ∧
    ("Sweden (nanBP)") ∈ binKeys [rowNoAge] ∧
    (("10.0", "20.0", "Sweden (nanBP)") ∈ siteKeys [rowNoAge]) ∧
    binSum [rowNoAge] ("Sweden (nanBP)") ("y_haplos_sum") = 1 := by
  refine ⟨rfl, by decide, by decide, by decide⟩

/-- Claim C4: for every observed bin key and every aggregated column — the
per-letter columns and the track totals alike — the bin-level aggregated value
equals the sum, over all site-level rows sharing that bin key, of the
site-level aggregated value: no record is double counted and none is dropped
between the two levels. -/
theorem c4_theorem (rows : List Row) (b : String) (col : String)
    (_hb : b ∈ binKeys rows) :
    binSum rows b col =
      (((siteKeys rows).filter (fun k => decide (k.2.2 = b))).map
        (fun k => siteSum rows k col)).sum := by
  have hnd : (((siteKeys rows).filter (fun k => decide (k.2.2 = b)))).Nodup :=
    (List.nodup_dedup _).filter _
  have hcov : ∀ r ∈ binGroup rows b, ∃ k, siteKey r = some k ∧
      k ∈ (siteKeys rows).filter (fun k => decide (k.2.2 = b)) := by
    intro r hr
    have hrrows : r ∈ rows := List.mem_of_mem_filter hr
    have hrbin : r.bin = some b := by
      have := (List.mem_filter.mp hr).2
      rwa [decide_eq_true_eq] at this
    refine ⟨(r.lat, r.lon, b), ?_, ?_⟩
    · unfold siteKey
      rw [hrbin]
      rfl
    · rw [List.mem_filter]
      constructor
      · unfold siteKeys
        refine List.mem_dedup.mpr (List.mem_filterMap.mpr ⟨r, hrrows, ?_⟩)
        unfold siteKey
        rw [hrbin]
        rfl
      · simp
  have hfiber := sumFiber (fun r => cell r col) siteKey (binGroup rows b)
    ((siteKeys rows).filter (fun k => decide (k.2.2 = b))) hnd hcov
  have hgroups : ∀ k ∈ (siteKeys rows).filter (fun x => decide (x.2.2 = b)),
      ((binGroup rows b).filter (fun r => decide (siteKey r = some k)))
        = siteGroup rows k := by
    intro k hkmem
    have hkb : k.2.2 = b := by
      have := (List.mem_filter.mp hkmem).2
      rwa [decide_eq_true_eq] at this
    unfold binGroup siteGroup
    apply filterAbsorb
    intro r hr
    rw [decide_eq_true_eq] at hr ⊢
    unfold siteKey at hr
    cases hbin : r.bin with
    | none => rw [hbin] at hr; cases hr
    | some x =>
      rw [hbin] at hr
      have hxk : (r.lat, r.lon, x) = k := Option.some.inj hr
      have hx : k.2.2 = x := by rw [← hxk]
      rw [hx] at hkb
      rw [hkb]
  calc binSum rows b col
      = ((binGroup rows b).map (fun r => cell r col)).sum := rfl
    _ = (((siteKeys rows).filter (fun k => decide (k.2.2 = b))).map
          (fun k => (((binGroup rows b).filter
            (fun r => decide (siteKey r = some k))).map (fun r => cell r col)).sum)).sum
        := hfiber.symm
    _ = (((siteKeys rows).filter (fun k => decide (k.2.2 = b))).map
          (fun k => siteSum rows k col)).sum := by
        exact congrArg List.sum (List.map_congr_left (fun k hkmem => by
          unfold siteSum
          rw [hgroups k hkmem]))

/-- Witness for C4 on two records at distinct sites sharing one bin. -/
theorem c4_witness :
    (("S (0-999BP)") ∈ binKeys [rowA, rowB]) ∧
    binSum [rowA, rowB] ("S (0-999BP)") ("R_y_sum") =
      (((siteKeys [rowA, rowB]).filter (fun k => decide (k.2.2 = "S (0-999BP)"))).map
        (fun k => siteSum [rowA, rowB] k ("R_y_sum"))).sum := by
  exact ⟨by decide, c4_theorem [rowA, rowB] ("S (0-999BP)") ("R_y_sum") (by decide)⟩

/-- Claim C5: whenever every input row carries the encoder-established
identity — its track total cell equals the sum of its per-letter cells, which
createDummyVariables guarantees by constructing the total column as that row
sum — every aggregated row of the site level and of the bin level satisfies
the same identity for that track. -/
theorem c5_theorem (rows : List Row) (letterCols : List String) (totalCol : String)
    (hrec : ∀ r ∈ rows, cell r totalCol = (letterCols.map (fun c => cell r c)).sum) :
    (∀ k ∈ siteKeys rows, siteSum rows k totalCol
        = (letterCols.map (fun c => siteSum rows k c)).sum) ∧
    (∀ b ∈ binKeys rows, binSum rows b totalCol
        = (letterCols.map (fun c => binSum rows b c)).sum) := by
  have hgroup : ∀ G : List Row, (∀ r ∈ G, r ∈ rows) →
      (G.map (fun r => cell r totalCol)).sum
        = (letterCols.map (fun c => (G.map (fun r => cell r c)).sum)).sum := by
    intro G hsub
    calc (G.map (fun r => cell r totalCol)).sum
        = (G.map (fun r => (letterCols.map (fun c => cell r c)).sum)).sum := by
          exact congrArg List.sum
            (List.map_congr_left (fun r hr => hrec r (hsub r hr)))
      _ = (letterCols.map (fun c => (G.map (fun r => cell r c)).sum)).sum :=
          sumSwap G letterCols (fun r c => cell r c)
  constructor
  · intro k _
    exact hgroup (siteGroup rows k) (fun r hr => List.mem_of_mem_filter hr)
  · intro b _
    exact hgroup (binGroup rows b) (fun r hr => List.mem_of_mem_filter hr)

/-- Witness for C5 on one encoded record: site and bin rows satisfy the total
identity. -/
theorem c5_witness :
    (∀ r ∈ [rowA], cell r ("y_haplos_sum")
        = ((["R_y_sum"] : List String).map (fun c => cell r c)).sum) ∧
    (∀ b ∈ binKeys [rowA], binSum [rowA] b ("y_haplos_sum")
        = ((["R_y_sum"] : List String).map (fun c => binSum [rowA] b c)).sum) := by
  exact ⟨by decide, (c5_theorem [rowA] ["R_y_sum"] ("y_haplos_sum") (by decide)).2⟩

/-- Claim C7 (amended): the site-level table receives no coercion at all — its
total-count cells are returned untouched — while the bin-level table coerces
its total-count cells to numeric with the coerce error mode: numeric cells
pass through, and a cell fails the coercion exactly when it is already missing
or is a string that does not parse, in which case it becomes a missing value
(NaN), not zero and not a raised error. -/
theorem c7_theorem (c : PdCell) :
    finalizeSiteTotal c = c ∧
    (finalizeBinTotal c = PdCell.na ↔
      (c = PdCell.na ∨ ∃ s, c = PdCell.str s ∧ parseCell s = none)) ∧
    (∀ q : ℚ, c = PdCell.num q → finalizeBinTotal c = PdCell.num q) := by
  refine ⟨rfl, ?_, ?_⟩
  · cases c with
    | num q =>
      simp only [finalizeBinTotal, toNumericCoerce]
      constructor
      · intro h
        cases h
      · intro h
        rcases h with h | ⟨s, hs, _⟩
        · cases h
        · cases hs
    | str s =>
      simp only [finalizeBinTotal, toNumericCoerce]
      cases hp : parseCell s with
      | none =>
        constructor
        · intro _
          exact Or.inr ⟨s, rfl, hp⟩
        · intro _
          rfl
      | some q =>
        constructor
        · intro h
          cases h
        · intro h
          rcases h with h | ⟨s', hs', hp'⟩
          · cases h
          · have : s = s' := by cases hs'; rfl
            rw [← this] at hp'
            rw [hp] at hp'
            cases hp'
    | na => simp [finalizeBinTotal, toNumericCoerce]
  · intro q hq
    subst hq
    rfl

/-- Witness for C7: the unparsable string cell x stays itself at the site
level, and a numeric cell passes through the bin-level coercion. -/
theorem c7_witness :
    finalizeSiteTotal (PdCell.str ("x")) = PdCell.str ("x") ∧
    finalizeBinTotal (PdCell.num 3) = PdCell.num 3 := by
  exact ⟨(c7_theorem (PdCell.str ("x"))).1, (c7_theorem (PdCell.num 3)).2.2 3 rfl⟩

/-- Counterexample to C7 as stated: at the bin level a cell that fails numeric
coercion becomes the missing value, which is not zero; and the site-level
pipeline applies no coercion — the non-numeric cell survives untouched there. -/
theorem c7_counterexample :
    finalizeBinTotal (PdCell.str ("x")) = PdCell.na ∧
    PdCell.na ≠ PdCell.num 0 ∧
    finalizeSiteTotal (PdCell.str ("x")) = PdCell.str ("x") := by
  refine ⟨by decide, by decide, rfl⟩

end HaploMapper
